import Mathlib

/-!
Verification of the woreda naming standardizer's record-linkage core.

The development shallowly embeds the two Python source files:
  * `standardizer.py` — `match_and_correct` (reference correction mode);
  * `app.py` — `map_columns` and the `run_app` gating logic (merge mode).

Modelling conventions:
  * a table row is an ordered association list `List (String × Cell)`;
    a `Cell` is text, a missing value (pandas `NaN`), or a numeric value
    (used only for the added `match_score` column);
  * the `rapidfuzz` scorers the program calls (`fuzz.ratio`,
    `fuzz.token_set_ratio`, `process.extractOne`) are embedded from the
    library's documented algorithm: `fuzz.ratio` is the normalized indel
    similarity (via longest common subsequence), `fuzz.token_set_ratio`
    compares sorted sets of whitespace tokens, and `extractOne` returns
    the first best-scoring choice; real-valued scores are modelled as
    rationals `ℚ`;
  * Python's `str.lower` is modelled on the basic-latin range
    (`Char.toLower`), and `str.strip` / `str.split()` strip and split on
    ASCII whitespace.
-/

/-- A cell of a table: text, a missing value (pandas `NaN`), or a number
(used for the `match_score` column the program adds). -/
inductive Cell where
  | str (s : String)
  | null
  | num (q : ℚ)
deriving DecidableEq, Repr

/-- One table row: an ordered association list from column name to cell. -/
abbrev Row := List (String × Cell)

/-- Model of `row.get(name, '')` on a pandas row: the cell under `name`, if the
column is present. -/
def rowGet (row : Row) (name : String) : Option Cell :=
  (row.find? (fun p => p.1 == name)).map (fun p => p.2)

/-- Python `str(...)` applied to `row.get(name, '')`: an absent column
yields the default `''`; a `NaN` cell stringifies to `"nan"`. -/
def pyStr : Option Cell → String
  | none => ""
  | some (Cell.str s) => s
  | some Cell.null => "nan"
  | some (Cell.num q) => toString q

/-- ASCII whitespace as recognised by Python's `str.strip()` and
`str.split()`. -/
def isSpaceChar (c : Char) : Bool :=
  c = ' ' || c = '\t' || c = '\n' || c = '\r' || c = '\x0b' || c = '\x0c'

/-- Python `str.strip()` on a character list: drop whitespace from both
ends. -/
def stripChars (l : List Char) : List Char :=
  ((l.dropWhile isSpaceChar).reverse.dropWhile isSpaceChar).reverse

/-- Python `s.strip().lower()` (basic-latin model of `lower`): the value
normalizer of `match_and_correct` (standardizer.py lines 64–66) and the
header normalizer of `map_columns` (app.py line 73). -/
def normStr (s : String) : String :=
  String.mk ((stripChars s.toList).map Char.toLower)

/-- Model of `str(row.get(name, '')).strip().lower()`: normalization of one field
of a row. -/
def normValue (v : Option Cell) : String :=
  normStr (pyStr v)

/-- Helper of `pySplit`: accumulate the current word (reversed) while
scanning. -/
def splitWsAux : List Char → List Char → List String
  | [], acc => if acc.isEmpty then [] else [String.mk acc.reverse]
  | c :: cs, acc =>
    if isSpaceChar c then
      (if acc.isEmpty then [] else [String.mk acc.reverse]) ++ splitWsAux cs []
    else
      splitWsAux cs (c :: acc)

/-- Python `str.split()` with no argument: split on whitespace runs,
discarding empty pieces. -/
def pySplit (s : String) : List String :=
  splitWsAux s.toList []

/-- The sorted set of whitespace tokens of a string, as used by
`fuzz.token_set_ratio`. -/
def tokenSet (s : String) : List String :=
  List.insertionSort (fun a b => a ≤ b) (pySplit s).dedup

/-- Model of `" ".join(...)`. -/
def joinSpace (l : List String) : String :=
  String.intercalate " " l

/-- Length of the longest common subsequence of two character lists,
written with an explicit fuel argument so that the recursion is
structural; every recursive call consumes one unit of fuel and shortens
one of the lists, so fuel `a.length + b.length` always suffices. -/
def lcsLenFuel : Nat → List Char → List Char → Nat
  | 0, _, _ => 0
  | _ + 1, [], _ => 0
  | _ + 1, _ :: _, [] => 0
  | f + 1, a :: as, b :: bs =>
    if a = b then lcsLenFuel f as bs + 1
    else max (lcsLenFuel f as (b :: bs)) (lcsLenFuel f (a :: as) bs)

/-- Length of the longest common subsequence of two character lists. -/
def lcsLen (a b : List Char) : Nat :=
  lcsLenFuel (a.length + b.length) a b

/-- The indel (insertion/deletion) edit distance between two character
lists, expressed through the longest common subsequence. -/
def indelDist (a b : List Char) : Nat :=
  a.length + b.length - 2 * lcsLen a b

/-- The expression `100 * (1 - dist / lensum)`, the normalized-similarity step of
rapidfuzz, with the empty-input convention of score 100. -/
def normDistQ (dist lensum : Nat) : ℚ :=
  if lensum = 0 then 100 else 100 * (1 - (dist : ℚ) / (lensum : ℚ))

/-- Model of `fuzz.ratio`: normalized indel similarity of two strings, scaled to
0–100. -/
def fuzzRatioQ (a b : String) : ℚ :=
  normDistQ (indelDist a.toList b.toList) (a.toList.length + b.toList.length)

/-- Model of `tokens_a.intersection(tokens_b)` on sorted token lists. -/
def tokenSetInter (ta tb : List String) : List String :=
  ta.filter (fun t => tb.contains t)

/-- Model of `tokens_a.difference(tokens_b)` on sorted token lists. -/
def tokenSetDiff (ta tb : List String) : List String :=
  ta.filter (fun t => !(tb.contains t))

/-- The arithmetic branch of `fuzz.token_set_ratio`: the maximum of the
indel ratio between the joined differences and the normalized distances
between the joined intersection and each intersection-plus-difference
string, where a nonempty intersection contributes one joining space. -/
def tokenSetArith (s1 s2 : String) : ℚ :=
  let ta := tokenSet s1
  let tb := tokenSet s2
  let inter := tokenSetInter ta tb
  let dab := tokenSetDiff ta tb
  let dba := tokenSetDiff tb ta
  let abJ := joinSpace dab
  let baJ := joinSpace dba
  let abLen := abJ.toList.length
  let baLen := baJ.toList.length
  let sectLen := (joinSpace inter).toList.length
  let bonus := if sectLen = 0 then 0 else 1
  let sectAbLen := sectLen + bonus + abLen
  let sectBaLen := sectLen + bonus + baLen
  let r1 := fuzzRatioQ abJ baJ
  let r2 := normDistQ (bonus + abLen) (sectLen + sectAbLen)
  let r3 := normDistQ (bonus + baLen) (sectLen + sectBaLen)
  let r4 := normDistQ (bonus + abLen + (bonus + baLen)) (sectAbLen + sectBaLen)
  max (max r1 r2) (max r3 r4)

/-- Model of `fuzz.token_set_ratio`: compare the sorted whitespace-token sets of
the two strings; 0 when either token set is empty, 100 as soon as the
token sets intersect and one is included in the other, otherwise the
arithmetic branch `tokenSetArith`. -/
def tokenSetRatioQ (s1 s2 : String) : ℚ :=
  if (tokenSet s1).isEmpty || (tokenSet s2).isEmpty then 0
  else if !(tokenSetInter (tokenSet s1) (tokenSet s2)).isEmpty &&
      ((tokenSetDiff (tokenSet s1) (tokenSet s2)).isEmpty ||
        (tokenSetDiff (tokenSet s2) (tokenSet s1)).isEmpty) then 100
  else tokenSetArith s1 s2

/-- Model of `process.extractOne(query, choices, scorer)`: the first choice with
the maximal score, as `(choice, score, index)`; `none` on an empty choice
list. -/
def extractOne (scorer : String → String → ℚ) (query : String)
    (choices : List String) : Option (String × ℚ × Nat) :=
  choices.enum.foldl
    (fun best p =>
      let s := scorer query p.2
      match best with
      | none => some (p.2, s, p.1)
      | some (c, bs, i) => if bs < s then some (p.2, s, p.1) else some (c, bs, i))
    none

/-- The invariant of the `extractOne` fold: the running best holds the
score of one of the seen choices and dominates every seen choice; it is
`none` exactly when nothing has been seen. -/
def bestInv (scorer : String → String → ℚ) (q : String) (seen : List String) :
    Option (String × ℚ × Nat) → Prop
  | none => seen = []
  | some (c, s, _) => s = scorer q c ∧ c ∈ seen ∧ ∀ x ∈ seen, scorer q x ≤ s

/-! ## standardizer.py: `match_and_correct` -/

/-- One row of the reference list (`data/reference.csv` after the lowercase
header cleanup of `load_reference_data`). -/
structure RefRow where
  region : String
  zone : String
  woreda : String
deriving DecidableEq, Repr

/-- The key `reference_df['region'] + "_" + reference_df['zone'] + "_" +
reference_df['woreda']` (standardizer.py line 60): the concatenated key of
a reference row, built from the raw reference values. -/
def refKey (r : RefRow) : String :=
  r.region ++ "_" ++ r.zone ++ "_" ++ r.woreda

/-- The query string of standardizer.py lines 64–69: each of the three
fields read with `row.get(..., '')`, stringified, stripped and lowercased,
then joined with underscores. -/
def userKey (row : Row) : String :=
  normValue (rowGet row "region") ++ "_" ++ normValue (rowGet row "zone")
    ++ "_" ++ normValue (rowGet row "woreda")

/-- Model of `process.extractOne(query_string, reference_choices,
scorer=fuzz.token_set_ratio)` for one user row (standardizer.py line 71). -/
def rowBest (choices : List String) (row : Row) : Option (String × ℚ × Nat) :=
  extractOne tokenSetRatioQ (userKey row) choices

/-- The acceptance test of standardizer.py line 73:
`best_match and best_match[1] >= threshold`. -/
def rowMatched (choices : List String) (threshold : ℚ) (row : Row) : Bool :=
  match rowBest choices row with
  | some (_, s, _) => threshold ≤ s
  | none => false

/-- Pandas column assignment `df.loc[index, name] = v` restricted to one
row: replace the cell when the column exists, otherwise append it. -/
def setCol (row : Row) (name : String) (v : Cell) : Row :=
  if row.any (fun p => p.1 == name) then
    row.map (fun p => if p.1 == name then (p.1, v) else p)
  else row ++ [(name, v)]

/-- The initialisation of standardizer.py lines 52–55: the four
standardized columns set to `""` and the score to `0.0` on a copy of the
input row. -/
def initCols (row : Row) : Row :=
  setCol (setCol (setCol (setCol row "standardized_region" (Cell.str ""))
    "standardized_zone" (Cell.str "")) "standardized_woreda" (Cell.str ""))
    "match_score" (Cell.num 0)

/-- The update of standardizer.py lines 79–82: on a successful match, the
four standardized columns are overwritten with the winning reference row's
values and the score. -/
def applyMatch (refRows : List RefRow) (s : ℚ) (idx : Nat) (base : Row) : Row :=
  setCol (setCol (setCol (setCol base
    "standardized_region" (Cell.str (refRows.getD idx ⟨"", "", ""⟩).region))
    "standardized_zone" (Cell.str (refRows.getD idx ⟨"", "", ""⟩).zone))
    "standardized_woreda" (Cell.str (refRows.getD idx ⟨"", "", ""⟩).woreda))
    "match_score" (Cell.num s)

/-- One row of the corrected output: the four standardized columns are
first initialised to `""`/`0.0` (standardizer.py lines 52–55) and then
overwritten with the winning reference row's values on a successful match
(lines 79–82). -/
def correctRow (refRows : List RefRow) (choices : List String) (threshold : ℚ)
    (row : Row) : Row :=
  match rowBest choices row with
  | some (_, s, idx) =>
    if threshold ≤ s then applyMatch refRows s idx (initCols row)
    else initCols row
  | none => initCols row

/-- The pair of dataframes returned by `match_and_correct`. -/
structure CorrectResult where
  corrected : List Row
  unmatched : List Row
deriving DecidableEq, Repr

/-- Model of `match_and_correct(user_df, threshold, region_zone_threshold)`
(standardizer.py lines 32–92), with the reference list passed explicitly
in place of the CSV read: the corrected table holds every input row with
the four added columns, and the unmatched table holds the rows whose best
full-key score fell below `threshold`. The `region_zone_threshold`
parameter is carried exactly as in the source, where the body never reads
it. -/
def match_and_correct (refRows : List RefRow) (user_df : List Row)
    (threshold : ℚ) (region_zone_threshold : ℚ) : CorrectResult :=
  { corrected := user_df.map (correctRow refRows (refRows.map refKey) threshold)
    unmatched :=
      user_df.filter (fun row => !(rowMatched (refRows.map refKey) threshold row)) }

/-! ## app.py: `map_columns`, `run_app` and the merge engine -/

/-- The list `required_key_columns` of app.py line 69. -/
def required_key_columns : List String :=
  ["region", "zone", "woreda", "health_facilities"]

/-- One iteration of the loop of `map_columns` (app.py lines 76–82): the
required field is fuzzy-matched against the normalized headers with
`fuzz.ratio`; a best match with score at least 85 binds the field to the
first original header whose normalized form equals the winning choice, and
otherwise the field is appended to the missing list. -/
def mapColumnsStep (headers : List String)
    (acc : List (String × String) × List String) (req : String) :
    List (String × String) × List String :=
  match extractOne fuzzRatioQ req (headers.map normStr) with
  | some (m, s, _) =>
    if 85 ≤ s then
      (acc.1 ++ [(req, headers.getD ((headers.map normStr).indexOf m) "")], acc.2)
    else (acc.1, acc.2 ++ [req])
  | none => (acc.1, acc.2 ++ [req])

/-- Model of `map_columns(df, required_cols)` (app.py lines 72–83): headers are
normalized by `strip().lower()` and each required field is resolved in
order by `mapColumnsStep`, starting from an empty mapping and an empty
missing list. -/
def map_columns (headers : List String) (required_cols : List String) :
    List (String × String) × List String :=
  required_cols.foldl (mapColumnsStep headers) ([], [])

/-- The rejection test of one required field in `map_columns`: true when
no normalized header reaches score 85 for it (app.py lines 77–82). -/
def colMissing (normalized : List String) (req : String) : Bool :=
  match extractOne fuzzRatioQ req normalized with
  | some (_, s, _) => if 85 ≤ s then false else true
  | none => true

/-- One match decision of the greedy merge pass: the query's index, the
claimed candidate index (or `none`), and the best score seen. -/
structure MatchResult where
  queryIdx : Nat
  candIdx : Option Nat
  score : ℚ
deriving DecidableEq, Repr

/-- Modelled from the spec: one step of the greedy matcher of §4.5 of the
spec (the body of `match_and_merge_two_datasets` is not present under
src/). The best-scoring pool entry is accepted when its score reaches the
threshold and its index is not yet in the claimed set; on acceptance the
index joins the claimed set, otherwise the query is left unmatched. -/
def greedyStep (pool : List String) (threshold : ℚ)
    (st : List MatchResult × List Nat) (q : Nat × String) :
    List MatchResult × List Nat :=
  match extractOne tokenSetRatioQ q.2 pool with
  | some (_, s, i) =>
    if threshold ≤ s ∧ i ∉ st.2 then (st.1 ++ [⟨q.1, some i, s⟩], i :: st.2)
    else (st.1 ++ [⟨q.1, none, s⟩], st.2)
  | none => (st.1 ++ [⟨q.1, none, 0⟩], st.2)

/-- Modelled from the spec: the greedy matching pass of §4.5 of the spec —
queries processed in input order against a fixed candidate pool, with a
claimed set that only grows. Returns the match results and the final
claimed set. -/
def greedyMatch (queries pool : List String) (threshold : ℚ) :
    List MatchResult × List Nat :=
  queries.enum.foldl (greedyStep pool threshold) ([], [])

/-- The key of one row in merge mode: the four required fields, looked up
through the table's column mapping, normalized and joined with
underscores. -/
def mergeKey (mapping : List (String × String)) (row : Row) : String :=
  String.intercalate "_"
    (required_key_columns.map (fun f =>
      normValue (rowGet row ((mapping.lookup f).getD f))))

/-- The three tables returned by the merge pass, by row index. -/
structure MergeResult where
  merged : List MatchResult
  unmatchedLeft : List Nat
  unmatchedRight : List Nat
deriving DecidableEq, Repr

/-- Modelled from the spec: `match_and_merge_two_datasets(df1, df2,
col_mapping1, col_mapping2, threshold)` — the function app.py imports from
the standardizer module but whose body is not present under src/. Per
§4.5 and §4.7 of the spec, it runs the greedy matching pass of the left
table's keys against the right table's keys and partitions both sides:
accepted results form the merged set, rejected queries the unmatched-left
set, and never-claimed pool indices the unmatched-right set. -/
def match_and_merge_two_datasets (df1 df2 : List Row)
    (map1 map2 : List (String × String)) (threshold : ℚ) : MergeResult :=
  { merged :=
      (greedyMatch (df1.map (mergeKey map1)) (df2.map (mergeKey map2)) threshold).1.filter
        (fun r => r.candIdx.isSome)
    unmatchedLeft :=
      ((greedyMatch (df1.map (mergeKey map1)) (df2.map (mergeKey map2)) threshold).1.filter
        (fun r => !r.candIdx.isSome)).map (fun r => r.queryIdx)
    unmatchedRight :=
      (List.range (df2.map (mergeKey map2)).length).filter
        (fun i =>
          !((greedyMatch (df1.map (mergeKey map1)) (df2.map (mergeKey map2))
              threshold).2.contains i)) }

/-- The outcome of one run of the app's processing stage. -/
inductive RunOutcome where
  | missingColumns (missing1 missing2 : List String)
  | merged (result : MergeResult)
deriving DecidableEq, Repr

/-- The gating logic of `run_app` (app.py lines 86–100): both tables'
column mappings are resolved first, and the merge engine is invoked only
when neither table has a missing required field; otherwise the run stops
with the missing-field report and no matching is attempted. -/
def run_app_process (df1 df2 : List Row) (headers1 headers2 : List String)
    (threshold : ℚ) : RunOutcome :=
  if (map_columns headers1 required_key_columns).2.isEmpty &&
      (map_columns headers2 required_key_columns).2.isEmpty then
    RunOutcome.merged (match_and_merge_two_datasets df1 df2
      (map_columns headers1 required_key_columns).1
      (map_columns headers2 required_key_columns).1 threshold)
  else RunOutcome.missingColumns (map_columns headers1 required_key_columns).2
    (map_columns headers2 required_key_columns).2

/-! ## Character-level lemmas -/

theorem char_toNat_ofNat_valid {n : Nat} (h : n < 55296) :
    (Char.ofNat n).toNat = n := by
  have hv : n.isValidChar := Or.inl h
  simp [Char.ofNat, dif_pos hv, Char.ofNatAux, Char.toNat, UInt32.toNat]

theorem char_toLower_eq (c : Char) :
    Char.toLower c = if 65 ≤ c.toNat ∧ c.toNat ≤ 90 then Char.ofNat (c.toNat + 32) else c :=
  rfl

theorem isSpaceChar_eq_false_of_toNat {c : Char} (h32 : c.toNat ≠ 32) (h9 : c.toNat ≠ 9)
    (h10 : c.toNat ≠ 10) (h13 : c.toNat ≠ 13) (h11 : c.toNat ≠ 11) (h12 : c.toNat ≠ 12) :
    isSpaceChar c = false := by
  unfold isSpaceChar
  simp only [Bool.or_eq_false_iff, decide_eq_false_iff_not]
  refine ⟨⟨⟨⟨⟨?_, ?_⟩, ?_⟩, ?_⟩, ?_⟩, ?_⟩ <;> intro he <;> subst he <;>
    first
      | exact h32 rfl
      | exact h9 rfl
      | exact h10 rfl
      | exact h13 rfl
      | exact h11 rfl
      | exact h12 rfl

theorem isSpaceChar_toLower (c : Char) :
    isSpaceChar (Char.toLower c) = isSpaceChar c := by
  rw [char_toLower_eq]
  by_cases h : 65 ≤ c.toNat ∧ c.toNat ≤ 90
  · rw [if_pos h]
    have h1 : (Char.ofNat (c.toNat + 32)).toNat = c.toNat + 32 :=
      char_toNat_ofNat_valid (by omega)
    rw [@isSpaceChar_eq_false_of_toNat (Char.ofNat (c.toNat + 32))
        (by omega) (by omega) (by omega) (by omega) (by omega) (by omega),
      @isSpaceChar_eq_false_of_toNat c
        (by omega) (by omega) (by omega) (by omega) (by omega) (by omega)]
  · rw [if_neg h]

theorem toLower_toLower (c : Char) :
    Char.toLower (Char.toLower c) = Char.toLower c := by
  rw [char_toLower_eq c]
  by_cases h : 65 ≤ c.toNat ∧ c.toNat ≤ 90
  · rw [if_pos h, char_toLower_eq]
    have h1 : (Char.ofNat (c.toNat + 32)).toNat = c.toNat + 32 :=
      char_toNat_ofNat_valid (by omega)
    rw [if_neg (by omega)]
  · rw [if_neg h, char_toLower_eq, if_neg h]

/-! ## Strip and normalization lemmas -/

theorem stripChars_head?_not_space {l : List Char} {c : Char}
    (h : (stripChars l).head? = some c) : isSpaceChar c = false := by
  obtain ⟨t, ht⟩ := List.rdropWhile_prefix isSpaceChar
    (l.dropWhile isSpaceChar)
  have ht' : stripChars l ++ t = l.dropWhile isSpaceChar := ht
  cases hsc : stripChars l with
  | nil => rw [hsc] at h; simp at h
  | cons d rest =>
    rw [hsc] at h
    simp only [List.head?_cons, Option.some.injEq] at h
    rw [← h]
    rw [hsc] at ht'
    have h2 : (l.dropWhile isSpaceChar).head? = some d := by
      rw [← ht']; rfl
    have h3 := List.head?_dropWhile_not isSpaceChar l
    rw [h2] at h3
    simpa using h3

theorem stripChars_getLast?_not_space {l : List Char} {c : Char}
    (h : (stripChars l).getLast? = some c) : isSpaceChar c = false := by
  have h2 : (((l.dropWhile isSpaceChar).reverse).dropWhile isSpaceChar).head? = some c := by
    rw [← List.getLast?_reverse]
    exact h
  have h3 := List.head?_dropWhile_not isSpaceChar (l.dropWhile isSpaceChar).reverse
  rw [h2] at h3
  simpa using h3

theorem dropWhile_eq_self_of_head? {u : List Char} {p : Char → Bool}
    (hh : ∀ c, u.head? = some c → p c = false) : u.dropWhile p = u := by
  cases u with
  | nil => rfl
  | cons c cs => simp [List.dropWhile_cons, hh c rfl]

theorem stripChars_eq_self {u : List Char}
    (hh : ∀ c, u.head? = some c → isSpaceChar c = false)
    (hl : ∀ c, u.getLast? = some c → isSpaceChar c = false) :
    stripChars u = u := by
  show ((u.dropWhile isSpaceChar).reverse.dropWhile isSpaceChar).reverse = u
  rw [dropWhile_eq_self_of_head? hh]
  rw [dropWhile_eq_self_of_head? (fun c hc => hl c (by rw [← List.head?_reverse]; exact hc))]
  exact List.reverse_reverse u

theorem stripChars_map_toLower_stripChars (l : List Char) :
    stripChars ((stripChars l).map Char.toLower) = (stripChars l).map Char.toLower := by
  apply stripChars_eq_self
  · intro c hc
    rw [List.head?_map] at hc
    cases hsc : (stripChars l).head? with
    | none => rw [hsc] at hc; simp at hc
    | some d =>
      rw [hsc] at hc
      simp at hc
      rw [← hc, isSpaceChar_toLower]
      exact stripChars_head?_not_space hsc
  · intro c hc
    rw [List.getLast?_map] at hc
    cases hsc : (stripChars l).getLast? with
    | none => rw [hsc] at hc; simp at hc
    | some d =>
      rw [hsc] at hc
      simp at hc
      rw [← hc, isSpaceChar_toLower]
      exact stripChars_getLast?_not_space hsc

theorem map_toLower_toLower (l : List Char) :
    (l.map Char.toLower).map Char.toLower = l.map Char.toLower := by
  induction l with
  | nil => rfl
  | cons c cs ih => simp only [List.map_cons, toLower_toLower, ih]

/-! ## Similarity scorer lemmas -/

theorem lcsLenFuel_le_left : ∀ (f : Nat) (a b : List Char),
    lcsLenFuel f a b ≤ a.length := by
  intro f
  induction f with
  | zero => intro a b; simp [lcsLenFuel]
  | succ g ih =>
    intro a b
    cases a with
    | nil => simp [lcsLenFuel]
    | cons x xs =>
      cases b with
      | nil => simp [lcsLenFuel]
      | cons y ys =>
        simp only [lcsLenFuel]
        by_cases h : x = y
        · rw [if_pos h]
          have := ih xs ys
          simp only [List.length_cons]
          omega
        · rw [if_neg h]
          apply Nat.max_le.mpr
          constructor
          · have := ih xs (y :: ys)
            simp only [List.length_cons]
            omega
          · exact ih (x :: xs) ys

theorem lcsLenFuel_le_right : ∀ (f : Nat) (a b : List Char),
    lcsLenFuel f a b ≤ b.length := by
  intro f
  induction f with
  | zero => intro a b; simp [lcsLenFuel]
  | succ g ih =>
    intro a b
    cases a with
    | nil => simp [lcsLenFuel]
    | cons x xs =>
      cases b with
      | nil => simp [lcsLenFuel]
      | cons y ys =>
        simp only [lcsLenFuel]
        by_cases h : x = y
        · rw [if_pos h]
          have := ih xs ys
          simp only [List.length_cons]
          omega
        · rw [if_neg h]
          apply Nat.max_le.mpr
          constructor
          · exact ih xs (y :: ys)
          · have := ih (x :: xs) ys
            simp only [List.length_cons]
            omega

theorem lcsLen_le_left (a b : List Char) : lcsLen a b ≤ a.length :=
  lcsLenFuel_le_left _ a b

theorem lcsLen_le_right (a b : List Char) : lcsLen a b ≤ b.length :=
  lcsLenFuel_le_right _ a b

theorem lcsLenFuel_self : ∀ (a : List Char) (f : Nat),
    a.length + a.length ≤ f → lcsLenFuel f a a = a.length := by
  intro a
  induction a with
  | nil =>
    intro f _
    cases f with
    | zero => rfl
    | succ g => rfl
  | cons x xs ih =>
    intro f hf
    cases f with
    | zero => simp at hf
    | succ g =>
      simp only [lcsLenFuel, if_pos rfl]
      have : xs.length + xs.length ≤ g := by
        simp only [List.length_cons] at hf
        omega
      rw [ih g this]
      simp

theorem lcsLen_self (a : List Char) : lcsLen a a = a.length :=
  lcsLenFuel_self a _ (le_refl _)

theorem normDistQ_le_100 (d n : Nat) : normDistQ d n ≤ 100 := by
  unfold normDistQ
  split
  · exact le_refl 100
  · rename_i hn
    have hd : (0 : ℚ) ≤ (d : ℚ) / (n : ℚ) := by positivity
    linarith

theorem normDistQ_zero (n : Nat) : normDistQ 0 n = 100 := by
  unfold normDistQ
  split
  · rfl
  · norm_num

theorem fuzzRatioQ_le_100 (a b : String) : fuzzRatioQ a b ≤ 100 :=
  normDistQ_le_100 _ _

theorem fuzzRatioQ_self (a : String) : fuzzRatioQ a a = 100 := by
  unfold fuzzRatioQ indelDist
  rw [lcsLen_self]
  have h : a.toList.length + a.toList.length - 2 * a.toList.length = 0 := by omega
  rw [h, normDistQ_zero]

theorem tokenSetArith_le_100 (s1 s2 : String) : tokenSetArith s1 s2 ≤ 100 := by
  simp only [tokenSetArith]
  apply max_le
  · exact max_le (fuzzRatioQ_le_100 _ _) (normDistQ_le_100 _ _)
  · exact max_le (normDistQ_le_100 _ _) (normDistQ_le_100 _ _)

theorem tokenSetRatioQ_le_100 (s1 s2 : String) : tokenSetRatioQ s1 s2 ≤ 100 := by
  unfold tokenSetRatioQ
  split
  · norm_num
  · split
    · exact le_refl 100
    · exact tokenSetArith_le_100 s1 s2

theorem tokenSetRatioQ_self {s : String} (h : tokenSet s ≠ []) :
    tokenSetRatioQ s s = 100 := by
  have hta : (tokenSet s).isEmpty = false := by
    cases hts : tokenSet s with
    | nil => exact absurd hts h
    | cons d l => rfl
  have hinter : tokenSetInter (tokenSet s) (tokenSet s) = tokenSet s := by
    unfold tokenSetInter
    apply List.filter_eq_self.mpr
    intro a ha
    simpa using ha
  have hdab : tokenSetDiff (tokenSet s) (tokenSet s) = [] := by
    unfold tokenSetDiff
    apply List.filter_eq_nil_iff.mpr
    intro a ha
    simpa using ha
  unfold tokenSetRatioQ
  rw [hinter, hdab, hta]
  simp [hta]

/-! ## Nonempty token sets for built keys -/

theorem splitWsAux_ne_nil_of_acc {l acc : List Char} (h : acc ≠ []) :
    splitWsAux l acc ≠ [] := by
  induction l generalizing acc with
  | nil => simp [splitWsAux, h]
  | cons d ds ih =>
    simp only [splitWsAux]
    split
    · have hne : (if acc.isEmpty then ([] : List String)
          else [String.mk acc.reverse]) = [String.mk acc.reverse] := by
        simp [List.isEmpty_iff, h]
      rw [hne]
      simp
    · exact ih (by simp)

theorem splitWsAux_ne_nil {l : List Char} (acc : List Char)
    (h : ∃ c ∈ l, isSpaceChar c = false) : splitWsAux l acc ≠ [] := by
  induction l generalizing acc with
  | nil =>
    obtain ⟨c, hc, _⟩ := h
    exact absurd hc (by simp)
  | cons d ds ih =>
    simp only [splitWsAux]
    split
    · rename_i hsp
      obtain ⟨c, hc, hcs⟩ := h
      have hc' : c ∈ ds := by
        cases hc with
        | head => rw [hsp] at hcs; exact absurd hcs (by simp)
        | tail _ h2 => exact h2
      have hrec := ih [] ⟨c, hc', hcs⟩
      intro hcontra
      rcases List.append_eq_nil.mp hcontra with ⟨_, h2⟩
      exact hrec h2
    · exact splitWsAux_ne_nil_of_acc (by simp)

theorem pySplit_ne_nil {s : String} (h : ∃ c ∈ s.toList, isSpaceChar c = false) :
    pySplit s ≠ [] :=
  splitWsAux_ne_nil [] h

theorem tokenSet_ne_nil {s : String} (h : ∃ c ∈ s.toList, isSpaceChar c = false) :
    tokenSet s ≠ [] := by
  unfold tokenSet
  intro hnil
  have hperm := List.perm_insertionSort (fun a b : String => a ≤ b) (pySplit s).dedup
  rw [hnil] at hperm
  have hded : (pySplit s).dedup = [] := hperm.symm.eq_nil
  exact pySplit_ne_nil h ((List.dedup_eq_nil (pySplit s)).mp hded)

theorem userKey_has_underscore (row : Row) :
    ∃ c ∈ (userKey row).toList, isSpaceChar c = false := by
  refine ⟨'_', ?_, by decide⟩
  show '_' ∈ (userKey row).data
  unfold userKey
  simp only [String.data_append]
  have h1 : '_' ∈ ("_" : String).data := by decide
  simp only [List.mem_append]
  left; left; left
  right
  exact h1

theorem tokenSet_userKey_ne_nil (row : Row) : tokenSet (userKey row) ≠ [] :=
  tokenSet_ne_nil (userKey_has_underscore row)

theorem normStr_idem (s : String) : normStr (normStr s) = normStr s := by
  unfold normStr
  have htl : (String.mk ((stripChars s.toList).map Char.toLower)).toList
      = (stripChars s.toList).map Char.toLower := rfl
  rw [htl, stripChars_map_toLower_stripChars, map_toLower_toLower]

/-! ## Specification of `extractOne` -/

theorem bestInv_foldl (scorer : String → String → ℚ) (q : String) :
    ∀ (l : List (Nat × String)) (seen : List String)
      (st : Option (String × ℚ × Nat)),
      bestInv scorer q seen st →
      bestInv scorer q (seen ++ l.map Prod.snd)
        (l.foldl
          (fun best p =>
            let s := scorer q p.2
            match best with
            | none => some (p.2, s, p.1)
            | some (c, bs, i) =>
              if bs < s then some (p.2, s, p.1) else some (c, bs, i))
          st) := by
  intro l
  induction l with
  | nil =>
    intro seen st h
    simpa using h
  | cons p ps ih =>
    intro seen st h
    rw [List.foldl_cons]
    have hstep : bestInv scorer q (seen ++ [p.2])
        ((fun best (p : Nat × String) =>
            let s := scorer q p.2
            match best with
            | none => some (p.2, s, p.1)
            | some (c, bs, i) =>
              if bs < s then some (p.2, s, p.1) else some (c, bs, i)) st p) := by
      cases st with
      | none =>
        have hseen : seen = [] := h
        subst hseen
        exact ⟨rfl, by simp, by simp⟩
      | some t =>
        obtain ⟨c, bs, i⟩ := t
        obtain ⟨h1, h2, h3⟩ := h
        by_cases hlt : bs < scorer q p.2
        · show bestInv scorer q (seen ++ [p.2])
            (if bs < scorer q p.2 then some (p.2, scorer q p.2, p.1) else some (c, bs, i))
          rw [if_pos hlt]
          refine ⟨rfl, by simp, ?_⟩
          intro x hx
          rcases List.mem_append.mp hx with hx | hx
          · exact le_of_lt (lt_of_le_of_lt (h1 ▸ h3 x hx) hlt)
          · rw [List.mem_singleton.mp hx]
        · show bestInv scorer q (seen ++ [p.2])
            (if bs < scorer q p.2 then some (p.2, scorer q p.2, p.1) else some (c, bs, i))
          rw [if_neg hlt]
          refine ⟨h1, List.mem_append.mpr (Or.inl h2), ?_⟩
          intro x hx
          rcases List.mem_append.mp hx with hx | hx
          · exact h3 x hx
          · rw [List.mem_singleton.mp hx]
            exact not_lt.mp hlt
    have hrest := ih (seen ++ [p.2]) _ hstep
    simpa [List.append_assoc] using hrest

theorem extractOne_spec (scorer : String → String → ℚ) (q : String)
    (choices : List String) (h : choices ≠ []) :
    ∃ c s i, extractOne scorer q choices = some (c, s, i) ∧ s = scorer q c ∧
      c ∈ choices ∧ ∀ x ∈ choices, scorer q x ≤ s := by
  have hsnd : choices.enum.map Prod.snd = choices :=
    List.enumFrom_map_snd 0 choices
  have hinv := bestInv_foldl scorer q choices.enum [] none rfl
  rw [List.nil_append, hsnd] at hinv
  cases hres : extractOne scorer q choices with
  | none =>
    unfold extractOne at hres
    rw [hres] at hinv
    exact absurd hinv h
  | some t =>
    obtain ⟨c, s, i⟩ := t
    unfold extractOne at hres
    rw [hres] at hinv
    obtain ⟨h1, h2, h3⟩ := hinv
    exact ⟨c, s, i, rfl, h1, h2, h3⟩

theorem extractOne_nil (scorer : String → String → ℚ) (q : String) :
    extractOne scorer q [] = none := rfl

/-! ## Claim theorems for `match_and_correct` -/

/-- C2: partition invariant of correction mode — `match_and_correct` keeps
every input row in the corrected table, the number of successfully matched
rows plus the number of unmatched rows equals the input row count, and a
row lands in the unmatched table exactly when its best score fails the
threshold, so each row is in exactly one of the two categories. -/
theorem match_and_correct_partition (refRows : List RefRow) (user_df : List Row)
    (thr rz : ℚ) :
    ((match_and_correct refRows user_df thr rz).corrected.length = user_df.length) ∧
    (user_df.countP (fun row => rowMatched (refRows.map refKey) thr row) +
      (match_and_correct refRows user_df thr rz).unmatched.length = user_df.length) ∧
    (∀ row ∈ user_df,
      (row ∈ (match_and_correct refRows user_df thr rz).unmatched ↔
        rowMatched (refRows.map refKey) thr row = false)) := by
  refine ⟨?_, ?_, ?_⟩
  · simp [match_and_correct]
  · show user_df.countP _ +
      (user_df.filter fun row => !(rowMatched (refRows.map refKey) thr row)).length
      = user_df.length
    rw [← List.countP_eq_length_filter]
    have hc : user_df.countP
        (fun row => !(rowMatched (refRows.map refKey) thr row)) =
        user_df.countP
          (fun row => ¬(rowMatched (refRows.map refKey) thr row : Prop)) := by
      apply List.countP_congr
      intro x _
      simp
    rw [hc]
    exact (@List.length_eq_countP_add_countP _
      (fun row => rowMatched (refRows.map refKey) thr row) user_df).symm
  · intro row hrow
    show row ∈ user_df.filter (fun row => !(rowMatched (refRows.map refKey) thr row)) ↔ _
    rw [List.mem_filter]
    simp [hrow]

/-- Closed witness for C2 at a concrete reference and table. -/
theorem match_and_correct_partition_witness :
    [("region", Cell.str "a"), ("zone", Cell.str "b"), ("woreda", Cell.str "c")] ∈
      (match_and_correct [⟨"x", "y", "z"⟩]
        [[("region", Cell.str "a"), ("zone", Cell.str "b"), ("woreda", Cell.str "c")]]
        101 90).unmatched :=
  ((match_and_correct_partition [⟨"x", "y", "z"⟩]
      [[("region", Cell.str "a"), ("zone", Cell.str "b"), ("woreda", Cell.str "c")]]
      101 90).2.2 _ (by simp)).mpr (by with_unfolding_all decide)

/-- C4: threshold monotonicity — for a fixed input table and reference,
raising the woreda threshold never shrinks the unmatched table and never
grows the number of matched rows. -/
theorem match_and_correct_threshold_mono (refRows : List RefRow)
    (user_df : List Row) (rz : ℚ) {t1 t2 : ℚ} (h : t1 ≤ t2) :
    (match_and_correct refRows user_df t1 rz).unmatched.length ≤
      (match_and_correct refRows user_df t2 rz).unmatched.length ∧
    user_df.countP (fun row => rowMatched (refRows.map refKey) t2 row) ≤
      user_df.countP (fun row => rowMatched (refRows.map refKey) t1 row) := by
  have hpt : ∀ row, rowMatched (refRows.map refKey) t2 row = true →
      rowMatched (refRows.map refKey) t1 row = true := by
    intro row hm
    unfold rowMatched at hm ⊢
    cases hb : rowBest (refRows.map refKey) row with
    | none => rw [hb] at hm; simp at hm
    | some t =>
      obtain ⟨c, s, i⟩ := t
      rw [hb] at hm
      simp only [decide_eq_true_eq] at hm ⊢
      exact le_trans h hm
  constructor
  · show (user_df.filter _).length ≤ (user_df.filter _).length
    rw [← List.countP_eq_length_filter, ← List.countP_eq_length_filter]
    apply List.countP_mono_left
    intro row hrow hcond
    simp only [Bool.not_eq_true'] at hcond ⊢
    cases hm2 : rowMatched (refRows.map refKey) t2 row with
    | false => rfl
    | true => exact absurd (hpt row hm2) (by rw [hcond]; simp)
  · exact List.countP_mono_left (fun row _ => hpt row)

/-- Closed witness for C4 at a concrete reference and table. -/
theorem match_and_correct_threshold_mono_witness :
    (match_and_correct [⟨"x", "y", "z"⟩] [[("region", Cell.str "x")]] 80 90).unmatched.length ≤
      (match_and_correct [⟨"x", "y", "z"⟩] [[("region", Cell.str "x")]] 101 90).unmatched.length :=
  (match_and_correct_threshold_mono [⟨"x", "y", "z"⟩] [[("region", Cell.str "x")]]
    90 (by norm_num)).1

/-- C10: the `region_zone_threshold` parameter does not interfere with the
result — `match_and_correct` returns identical corrected and unmatched
tables for any two values of it, because the body never reads it. -/
theorem match_and_correct_rz_noninterference (refRows : List RefRow)
    (user_df : List Row) (thr t1 t2 : ℚ) :
    match_and_correct refRows user_df thr t1 =
      match_and_correct refRows user_df thr t2 := rfl

/-- C8: idempotence of normalization — applying the
`strip().lower()` normalizer to any string it has produced returns the
string unchanged. -/
theorem normStr_idempotent (s : String) : normStr (normStr s) = normStr s :=
  normStr_idem s

/-- C5 (amended): a field absent from a row normalizes to the empty
string, but a present null (`NaN`) cell normalizes to the string
`"nan"`, since Python stringifies the float `NaN` before stripping and
lowercasing. -/
theorem normValue_of_missing (row : Row) (name : String)
    (h : rowGet row name = none) :
    normValue (rowGet row name) = "" ∧ normValue (some Cell.null) = "nan" := by
  rw [h]
  exact ⟨rfl, rfl⟩

/-- Closed witness for C5 at a concrete row and field. -/
theorem normValue_of_missing_witness :
    normValue (rowGet [] "region") = "" ∧ normValue (some Cell.null) = "nan" :=
  normValue_of_missing [] "region" rfl

/-- Counterexample to C5 as stated: the normalizer maps a null (`NaN`)
cell to `"nan"`, not to the empty string. -/
theorem normValue_null_counterexample :
    normValue (some Cell.null) = "nan" ∧ normValue (some Cell.null) ≠ "" := by
  refine ⟨rfl, ?_⟩
  intro h
  exact absurd h (by decide)

/-- C3: exact match is always accepted — when a query row's normalized
concatenated key equals some reference row's concatenated key, the best
score returned for that row is exactly 100 and the row is matched at every
threshold at most 100. -/
theorem exact_match_always_accepted (refRows : List RefRow) (row : Row)
    (r : RefRow) (thr : ℚ) (hr : r ∈ refRows) (hkey : userKey row = refKey r)
    (hthr : thr ≤ 100) :
    ∃ c i, rowBest (refRows.map refKey) row = some (c, 100, i) ∧
      rowMatched (refRows.map refKey) thr row = true := by
  have hne : refRows.map refKey ≠ [] := by
    intro hnil
    rw [List.map_eq_nil_iff] at hnil
    subst hnil
    simp at hr
  obtain ⟨c, s, i, heq, h1, h2, h3⟩ :=
    extractOne_spec tokenSetRatioQ (userKey row) (refRows.map refKey) hne
  have hupper : s ≤ 100 := by
    rw [h1]
    exact tokenSetRatioQ_le_100 _ _
  have hlower : (100 : ℚ) ≤ s := by
    have hdom := h3 (refKey r) (List.mem_map_of_mem refKey hr)
    rw [← hkey, tokenSetRatioQ_self (tokenSet_userKey_ne_nil row)] at hdom
    exact hdom
  have hs : s = 100 := le_antisymm hupper hlower
  subst hs
  refine ⟨c, i, heq, ?_⟩
  unfold rowMatched
  rw [show rowBest (refRows.map refKey) row = some (c, 100, i) from heq]
  simpa using hthr

/-- C1: evaluation of `match_and_correct` at a failing input for the
claimed two-stage gate. The reference holds no entry with the record's
(region, zone) pair ("dd", "ee"), yet the record is matched with score 100
(the full concatenated keys overlap on the token `dd_ee_ff`), its
standardized fields are filled from the only reference row, and the
unmatched table is empty — the coarse region-zone stage the claim
describes never runs, and `region_zone_threshold` (here 90) is never
consulted. -/
theorem correction_has_no_region_zone_stage :
    ((match_and_correct [⟨"aa", "bb", "cc dd_ee_ff"⟩]
        [[("region", Cell.str "dd"), ("zone", Cell.str "ee"), ("woreda", Cell.str "ff")]]
        80 90).unmatched = []) ∧
    (rowGet ((match_and_correct [⟨"aa", "bb", "cc dd_ee_ff"⟩]
        [[("region", Cell.str "dd"), ("zone", Cell.str "ee"), ("woreda", Cell.str "ff")]]
        80 90).corrected.headD []) "standardized_region" = some (Cell.str "aa")) ∧
    (∀ r ∈ ([⟨"aa", "bb", "cc dd_ee_ff"⟩] : List RefRow),
      ¬(normStr r.region = "dd" ∧ normStr r.zone = "ee")) := by
  refine ⟨?_, ?_, ?_⟩
  · with_unfolding_all decide
  · with_unfolding_all decide
  · with_unfolding_all decide

/-! ## Claim theorems for `map_columns` and the app gating -/

theorem mapColumnsStep_snd (headers : List String)
    (acc : List (String × String) × List String) (req : String) :
    (mapColumnsStep headers acc req).2 =
      if colMissing (headers.map normStr) req then acc.2 ++ [req] else acc.2 := by
  unfold mapColumnsStep colMissing
  cases hbest : extractOne fuzzRatioQ req (headers.map normStr) with
  | none => simp
  | some t =>
    obtain ⟨m, s, i⟩ := t
    by_cases hs : (85 : ℚ) ≤ s
    · simp [hs]
    · simp [hs]

theorem map_columns_foldl_snd (headers : List String) :
    ∀ (reqs : List String) (acc : List (String × String) × List String),
      (reqs.foldl (mapColumnsStep headers) acc).2 =
        acc.2 ++ reqs.filter (fun req => colMissing (headers.map normStr) req) := by
  intro reqs
  induction reqs with
  | nil => intro acc; simp
  | cons r rs ih =>
    intro acc
    rw [List.foldl_cons, List.filter_cons, ih (mapColumnsStep headers acc r),
      mapColumnsStep_snd]
    by_cases hcm : colMissing (headers.map normStr) r
    · rw [if_pos hcm, if_pos hcm]
      simp
    · rw [if_neg hcm, if_neg hcm]

theorem map_columns_snd (headers required : List String) :
    (map_columns headers required).2 =
      required.filter (fun req => colMissing (headers.map normStr) req) := by
  unfold map_columns
  rw [map_columns_foldl_snd]
  simp

theorem colMissing_iff (normalized : List String) (req : String) :
    colMissing normalized req = true ↔
      ∀ hd ∈ normalized, fuzzRatioQ req hd < 85 := by
  unfold colMissing
  cases hbest : extractOne fuzzRatioQ req normalized with
  | none =>
    have hnil : normalized = [] := by
      by_contra hne
      obtain ⟨c, s, i, heq, _⟩ := extractOne_spec fuzzRatioQ req normalized hne
      rw [heq] at hbest
      exact absurd hbest (by simp)
    subst hnil
    simp
  | some t =>
    obtain ⟨c, s, i⟩ := t
    show (if (85 : ℚ) ≤ s then false else true) = true ↔
      ∀ hd ∈ normalized, fuzzRatioQ req hd < 85
    have hne : normalized ≠ [] := by
      intro hnil
      subst hnil
      rw [extractOne_nil] at hbest
      exact absurd hbest (by simp)
    obtain ⟨c', s', i', heq, h1, h2, h3⟩ := extractOne_spec fuzzRatioQ req normalized hne
    rw [heq] at hbest
    simp only [Option.some.injEq, Prod.mk.injEq] at hbest
    obtain ⟨hc, hs', hi⟩ := hbest
    rw [← hs']
    constructor
    · intro hif hd hhd
      have hs : s' < 85 := by
        by_contra hs85
        rw [if_pos (not_lt.mp hs85)] at hif
        exact absurd hif (by simp)
      exact lt_of_le_of_lt (h3 hd hhd) hs
    · intro hall
      have hs : s' < 85 := by
        rw [h1]
        exact hall c' h2
      rw [if_neg (not_le.mpr hs)]

/-- C6: column resolution is all-or-nothing with threshold 85 — a required
field is reported missing by `map_columns` exactly when no normalized
header reaches ratio score 85 against it, and when any required field of
either table is missing, `run_app` stops with the missing-column report
and the merge engine is never invoked, so a partial mapping is never
used. -/
theorem map_columns_all_or_nothing (headers : List String)
    (required : List String) (df1 df2 : List Row) (headers2 : List String)
    (thr : ℚ) :
    (∀ req, req ∈ (map_columns headers required).2 ↔
        (req ∈ required ∧ ∀ hd ∈ headers.map normStr, fuzzRatioQ req hd < 85)) ∧
    ((map_columns headers required_key_columns).2 ≠ [] ∨
        (map_columns headers2 required_key_columns).2 ≠ [] →
      run_app_process df1 df2 headers headers2 thr =
        RunOutcome.missingColumns (map_columns headers required_key_columns).2
          (map_columns headers2 required_key_columns).2) := by
  constructor
  · intro req
    rw [map_columns_snd, List.mem_filter]
    constructor
    · rintro ⟨hmem, hcm⟩
      exact ⟨hmem, (colMissing_iff _ _).mp hcm⟩
    · rintro ⟨hmem, hall⟩
      exact ⟨hmem, (colMissing_iff _ _).mpr hall⟩
  · intro hmiss
    unfold run_app_process
    rw [if_neg]
    intro hcond
    rw [Bool.and_eq_true, List.isEmpty_iff, List.isEmpty_iff] at hcond
    rcases hmiss with hm | hm
    · exact hm hcond.1
    · exact hm hcond.2

/-- Closed witness for C6: with headers `["Region ", "foo"]` the field
`zone` has no header scoring 85 and is reported missing, and the run stops
with the missing-column outcome. -/
theorem map_columns_all_or_nothing_witness :
    ("zone" ∈ (map_columns ["Region ", "foo"] required_key_columns).2) ∧
    run_app_process [] [] ["Region ", "foo"] ["Region ", "foo"] 80 =
      RunOutcome.missingColumns (map_columns ["Region ", "foo"] required_key_columns).2
        (map_columns ["Region ", "foo"] required_key_columns).2 := by
  constructor
  · refine ((map_columns_all_or_nothing ["Region ", "foo"] required_key_columns
      [] [] ["Region ", "foo"] 80).1 "zone").mpr
      ⟨by simp [required_key_columns], ?_⟩
    intro hd hhd
    have hcases : hd = normStr "Region " ∨ hd = normStr "foo" := by
      simpa using hhd
    rcases hcases with h | h <;> subst h <;> with_unfolding_all decide
  · exact (map_columns_all_or_nothing ["Region ", "foo"] required_key_columns
      [] [] ["Region ", "foo"] 80).2
      (Or.inl (by with_unfolding_all decide))

/-! ## Claim theorem for the merge engine's claimed set -/

theorem greedyStep_eq_none (pool : List String) (thr : ℚ)
    (st : List MatchResult × List Nat) (q : Nat × String)
    (h : extractOne tokenSetRatioQ q.2 pool = none) :
    greedyStep pool thr st q = (st.1 ++ [⟨q.1, none, 0⟩], st.2) := by
  unfold greedyStep
  rw [h]

theorem greedyStep_eq_some_acc (pool : List String) (thr : ℚ)
    (st : List MatchResult × List Nat) (q : Nat × String)
    (c : String) (s : ℚ) (i : Nat)
    (h : extractOne tokenSetRatioQ q.2 pool = some (c, s, i))
    (hacc : thr ≤ s ∧ i ∉ st.2) :
    greedyStep pool thr st q = (st.1 ++ [⟨q.1, some i, s⟩], i :: st.2) := by
  unfold greedyStep
  rw [h]
  exact if_pos hacc

theorem greedyStep_eq_some_rej (pool : List String) (thr : ℚ)
    (st : List MatchResult × List Nat) (q : Nat × String)
    (c : String) (s : ℚ) (i : Nat)
    (h : extractOne tokenSetRatioQ q.2 pool = some (c, s, i))
    (hacc : ¬(thr ≤ s ∧ i ∉ st.2)) :
    greedyStep pool thr st q = (st.1 ++ [⟨q.1, none, s⟩], st.2) := by
  unfold greedyStep
  rw [h]
  exact if_neg hacc

theorem greedyStep_inv (pool : List String) (thr : ℚ)
    (st : List MatchResult × List Nat) (q : Nat × String)
    (h1 : st.1.Pairwise (fun a b => ∀ j, a.candIdx = some j → b.candIdx ≠ some j))
    (h2 : ∀ r ∈ st.1, ∀ j, r.candIdx = some j → j ∈ st.2) :
    ((greedyStep pool thr st q).1.Pairwise
        (fun a b => ∀ j, a.candIdx = some j → b.candIdx ≠ some j)) ∧
      (∀ r ∈ (greedyStep pool thr st q).1, ∀ j,
        r.candIdx = some j → j ∈ (greedyStep pool thr st q).2) := by
  have hnone : ∀ (v : MatchResult), v.candIdx = none →
      (st.1 ++ [v]).Pairwise
          (fun a b => ∀ j, a.candIdx = some j → b.candIdx ≠ some j) ∧
        ∀ r ∈ st.1 ++ [v], ∀ j, r.candIdx = some j → j ∈ st.2 := by
    intro v hv
    constructor
    · rw [List.pairwise_append]
      refine ⟨h1, by simp, ?_⟩
      intro a _ b hb
      rw [List.mem_singleton.mp hb]
      intro j _
      rw [hv]
      simp
    · intro r hr j hrj
      rcases List.mem_append.mp hr with hr | hr
      · exact h2 r hr j hrj
      · rw [List.mem_singleton.mp hr, hv] at hrj
        simp at hrj
  cases hbest : extractOne tokenSetRatioQ q.2 pool with
  | none =>
    rw [greedyStep_eq_none pool thr st q hbest]
    exact hnone ⟨q.1, none, 0⟩ rfl
  | some t =>
    obtain ⟨c, s, i⟩ := t
    by_cases hacc : thr ≤ s ∧ i ∉ st.2
    · rw [greedyStep_eq_some_acc pool thr st q c s i hbest hacc]
      constructor
      · rw [List.pairwise_append]
        refine ⟨h1, by simp, ?_⟩
        intro a ha b hb
        rw [List.mem_singleton.mp hb]
        intro j haj heq
        simp only [Option.some.injEq] at heq
        rw [heq] at hacc
        exact hacc.2 (h2 a ha j haj)
      · intro r hr j hrj
        rcases List.mem_append.mp hr with hr | hr
        · exact List.mem_cons_of_mem i (h2 r hr j hrj)
        · rw [List.mem_singleton.mp hr] at hrj
          simp only [Option.some.injEq] at hrj
          rw [← hrj]
          exact List.mem_cons_self i st.2
    · rw [greedyStep_eq_some_rej pool thr st q c s i hbest hacc]
      exact hnone ⟨q.1, none, s⟩ rfl

theorem greedy_foldl_inv (pool : List String) (thr : ℚ) :
    ∀ (qs : List (Nat × String)) (st : List MatchResult × List Nat),
      st.1.Pairwise (fun a b => ∀ j, a.candIdx = some j → b.candIdx ≠ some j) →
      (∀ r ∈ st.1, ∀ j, r.candIdx = some j → j ∈ st.2) →
      ((qs.foldl (greedyStep pool thr) st).1.Pairwise
          (fun a b => ∀ j, a.candIdx = some j → b.candIdx ≠ some j) ∧
        ∀ r ∈ (qs.foldl (greedyStep pool thr) st).1, ∀ j,
          r.candIdx = some j → j ∈ (qs.foldl (greedyStep pool thr) st).2) := by
  intro qs
  induction qs with
  | nil => intro st h1 h2; exact ⟨h1, h2⟩
  | cons q qqs ih =>
    intro st h1 h2
    rw [List.foldl_cons]
    obtain ⟨g1, g2⟩ := greedyStep_inv pool thr st q h1 h2
    exact ih _ g1 g2

/-- C7: at-most-one-claim in merge mode — within one merge pass of
`match_and_merge_two_datasets`, no two accepted match results carry the
same candidate index: the claimed set blocks a candidate from being
matched to a second query. -/
theorem merge_at_most_one_claim (df1 df2 : List Row)
    (map1 map2 : List (String × String)) (thr : ℚ) :
    (match_and_merge_two_datasets df1 df2 map1 map2 thr).merged.Pairwise
      (fun a b => a.candIdx ≠ b.candIdx) := by
  have hinv := (greedy_foldl_inv (df2.map (mergeKey map2)) thr
    (df1.map (mergeKey map1)).enum ([], []) (by simp) (by simp)).1
  have hpw : (greedyMatch (df1.map (mergeKey map1)) (df2.map (mergeKey map2))
      thr).1.Pairwise (fun a b => ∀ j, a.candIdx = some j → b.candIdx ≠ some j) :=
    hinv
  show ((greedyMatch (df1.map (mergeKey map1)) (df2.map (mergeKey map2))
      thr).1.filter (fun r => r.candIdx.isSome)).Pairwise _
  have hpw2 := List.Pairwise.sublist
    (@List.filter_sublist MatchResult (fun r => r.candIdx.isSome)
      (greedyMatch (df1.map (mergeKey map1)) (df2.map (mergeKey map2)) thr).1) hpw
  apply List.Pairwise.imp_of_mem ?_ hpw2
  intro a b ha _ hR heq
  have hsa : a.candIdx.isSome = true := by
    have := (List.mem_filter.mp ha).2
    simpa using this
  obtain ⟨ja, hja⟩ := Option.isSome_iff_exists.mp hsa
  exact hR ja hja (heq ▸ hja)

/-! ## Claim theorems for the frame property of correction -/

theorem setCol_fresh (row : Row) (n : String) (v : Cell)
    (h : ∀ p ∈ row, p.1 ≠ n) : setCol row n v = row ++ [(n, v)] := by
  unfold setCol
  have hcond : row.any (fun p => p.1 == n) = false := by
    rw [List.any_eq_false]
    intro p hp
    simp [h p hp]
  rw [hcond]
  simp

theorem map_setCol_skip (row : Row) (n : String) (v : Cell)
    (hrow : ∀ p ∈ row, p.1 ≠ n) :
    row.map (fun p => if p.1 == n then (p.1, v) else p) = row := by
  induction row with
  | nil => rfl
  | cons p ps ih =>
    rw [List.map_cons]
    have hp : (p.1 == n) = false := by
      simp [hrow p (List.mem_cons_self p ps)]
    rw [hp]
    simp only [Bool.false_eq_true, if_false]
    rw [ih (fun x hx => hrow x (List.mem_cons_of_mem p hx))]

theorem setCol_append_found (row extra : Row) (n : String) (v : Cell)
    (hrow : ∀ p ∈ row, p.1 ≠ n) (hex : extra.any (fun p => p.1 == n) = true) :
    setCol (row ++ extra) n v =
      row ++ extra.map (fun p => if p.1 == n then (p.1, v) else p) := by
  unfold setCol
  have hcond : (row ++ extra).any (fun p => p.1 == n) = true := by
    rw [List.any_append, hex]
    simp
  rw [hcond]
  rw [if_pos rfl, List.map_append, map_setCol_skip row n v hrow]

theorem initCols_fresh (row : Row)
    (h1 : ∀ p ∈ row, p.1 ≠ "standardized_region")
    (h2 : ∀ p ∈ row, p.1 ≠ "standardized_zone")
    (h3 : ∀ p ∈ row, p.1 ≠ "standardized_woreda")
    (h4 : ∀ p ∈ row, p.1 ≠ "match_score") :
    initCols row = row ++
      [("standardized_region", Cell.str ""), ("standardized_zone", Cell.str ""),
        ("standardized_woreda", Cell.str ""), ("match_score", Cell.num 0)] := by
  unfold initCols
  rw [setCol_fresh row "standardized_region" (Cell.str "") h1]
  rw [setCol_fresh _ "standardized_zone" (Cell.str "") (by
    intro p hp
    rcases List.mem_append.mp hp with hp | hp
    · exact h2 p hp
    · rw [List.mem_singleton.mp hp]; simp)]
  rw [setCol_fresh _ "standardized_woreda" (Cell.str "") (by
    intro p hp
    rcases List.mem_append.mp hp with hp | hp
    · rcases List.mem_append.mp hp with hp | hp
      · exact h3 p hp
      · rw [List.mem_singleton.mp hp]; simp
    · rw [List.mem_singleton.mp hp]; simp)]
  rw [setCol_fresh _ "match_score" (Cell.num 0) (by
    intro p hp
    rcases List.mem_append.mp hp with hp | hp
    · rcases List.mem_append.mp hp with hp | hp
      · rcases List.mem_append.mp hp with hp | hp
        · exact h4 p hp
        · rw [List.mem_singleton.mp hp]; simp
      · rw [List.mem_singleton.mp hp]; simp
    · rw [List.mem_singleton.mp hp]; simp)]
  simp [List.append_assoc]

theorem applyMatch_append (refRows : List RefRow) (s : ℚ) (idx : Nat) (row : Row)
    (h1 : ∀ p ∈ row, p.1 ≠ "standardized_region")
    (h2 : ∀ p ∈ row, p.1 ≠ "standardized_zone")
    (h3 : ∀ p ∈ row, p.1 ≠ "standardized_woreda")
    (h4 : ∀ p ∈ row, p.1 ≠ "match_score") :
    applyMatch refRows s idx (row ++
        [("standardized_region", Cell.str ""), ("standardized_zone", Cell.str ""),
          ("standardized_woreda", Cell.str ""), ("match_score", Cell.num 0)]) =
      row ++
        [("standardized_region", Cell.str (refRows.getD idx ⟨"", "", ""⟩).region),
          ("standardized_zone", Cell.str (refRows.getD idx ⟨"", "", ""⟩).zone),
          ("standardized_woreda", Cell.str (refRows.getD idx ⟨"", "", ""⟩).woreda),
          ("match_score", Cell.num s)] := by
  unfold applyMatch
  rw [setCol_append_found row _ "standardized_region" _ h1 (by rfl)]
  rw [setCol_append_found row _ "standardized_zone" _ h2 (by rfl)]
  rw [setCol_append_found row _ "standardized_woreda" _ h3 (by rfl)]
  rw [setCol_append_found row _ "match_score" _ h4 (by rfl)]
  rfl

theorem correctRow_frame (refRows : List RefRow) (choices : List String)
    (thr : ℚ) (row : Row)
    (h1 : ∀ p ∈ row, p.1 ≠ "standardized_region")
    (h2 : ∀ p ∈ row, p.1 ≠ "standardized_zone")
    (h3 : ∀ p ∈ row, p.1 ≠ "standardized_woreda")
    (h4 : ∀ p ∈ row, p.1 ≠ "match_score") :
    ∃ a b c q, correctRow refRows choices thr row =
      row ++ [("standardized_region", Cell.str a), ("standardized_zone", Cell.str b),
        ("standardized_woreda", Cell.str c), ("match_score", Cell.num q)] := by
  unfold correctRow
  cases hbest : rowBest choices row with
  | none => exact ⟨"", "", "", 0, initCols_fresh row h1 h2 h3 h4⟩
  | some t =>
    obtain ⟨cc, s, idx⟩ := t
    show ∃ a b c q, (if thr ≤ s then applyMatch refRows s idx (initCols row)
        else initCols row) =
      row ++ [("standardized_region", Cell.str a), ("standardized_zone", Cell.str b),
        ("standardized_woreda", Cell.str c), ("match_score", Cell.num q)]
    by_cases hs : thr ≤ s
    · refine ⟨(refRows.getD idx ⟨"", "", ""⟩).region,
        (refRows.getD idx ⟨"", "", ""⟩).zone,
        (refRows.getD idx ⟨"", "", ""⟩).woreda, s, ?_⟩
      rw [if_pos hs, initCols_fresh row h1 h2 h3 h4,
        applyMatch_append refRows s idx row h1 h2 h3 h4]
    · exact ⟨"", "", "", 0, by rw [if_neg hs, initCols_fresh row h1 h2 h3 h4]⟩

/-- C9 (amended): frame property of correction — `match_and_correct`
works on a copy of the caller's table, and when no input column uses one
of the four reserved names, every corrected row is exactly its input row
with all original columns and values unchanged followed by the four added
columns `standardized_region`, `standardized_zone`, `standardized_woreda`
and `match_score`. A pre-existing column with one of those names would be
overwritten in place instead. -/
theorem match_and_correct_frame (refRows : List RefRow) (user_df : List Row)
    (thr rz : ℚ)
    (hfresh : ∀ row ∈ user_df, ∀ p ∈ row,
      p.1 ≠ "standardized_region" ∧ p.1 ≠ "standardized_zone" ∧
        p.1 ≠ "standardized_woreda" ∧ p.1 ≠ "match_score") :
    (match_and_correct refRows user_df thr rz).corrected.length = user_df.length ∧
    ∀ i (hi : i < user_df.length)
      (hi2 : i < (match_and_correct refRows user_df thr rz).corrected.length),
      ∃ a b c q,
        (match_and_correct refRows user_df thr rz).corrected.get ⟨i, hi2⟩ =
          user_df.get ⟨i, hi⟩ ++
            [("standardized_region", Cell.str a), ("standardized_zone", Cell.str b),
              ("standardized_woreda", Cell.str c), ("match_score", Cell.num q)] := by
  constructor
  · simp [match_and_correct]
  · intro i hi hi2
    have hrow : (match_and_correct refRows user_df thr rz).corrected.get ⟨i, hi2⟩ =
        correctRow refRows (refRows.map refKey) thr (user_df.get ⟨i, hi⟩) := by
      show (user_df.map (correctRow refRows (refRows.map refKey) thr)).get _ = _
      rw [List.get_map]
    rw [hrow]
    have hmem := List.get_mem user_df i hi
    exact correctRow_frame refRows (refRows.map refKey) thr (user_df.get ⟨i, hi⟩)
      (fun p hp => (hfresh _ hmem p hp).1)
      (fun p hp => (hfresh _ hmem p hp).2.1)
      (fun p hp => (hfresh _ hmem p hp).2.2.1)
      (fun p hp => (hfresh _ hmem p hp).2.2.2)

/-- Closed witness for C9 at a concrete table with no reserved column
names. -/
theorem match_and_correct_frame_witness :
    ∃ a b c q,
      (match_and_correct [] [[("region", Cell.str "x")]] 80 90).corrected.get
          ⟨0, by simp [match_and_correct]⟩ =
        [("region", Cell.str "x")] ++
          [("standardized_region", Cell.str a), ("standardized_zone", Cell.str b),
            ("standardized_woreda", Cell.str c), ("match_score", Cell.num q)] := by
  obtain ⟨a, b, c, q, h⟩ := (match_and_correct_frame [] [[("region", Cell.str "x")]]
    80 90 (by intro row hrow p hp; simp at hrow; subst hrow; simp at hp; subst hp; simp)).2
    0 (by simp) (by simp [match_and_correct])
  exact ⟨a, b, c, q, h⟩

/-- Counterexample to C9 as stated: on an input that already has a column
named `standardized_region`, the correction overwrites that column's value
(here `"keep"` becomes `""`), so the original columns are not all
preserved. -/
theorem match_and_correct_frame_counterexample :
    rowGet ((match_and_correct [] [[("standardized_region", Cell.str "keep")]]
        80 90).corrected.headD []) "standardized_region" = some (Cell.str "") ∧
      Cell.str "" ≠ Cell.str "keep" := by
  constructor
  · with_unfolding_all decide
  · with_unfolding_all decide

/-- Closed witness for C3: a query differing from the reference row only
in letter case and surrounding whitespace scores 100 and is matched at
threshold 100. -/
theorem exact_match_always_accepted_witness :
    rowMatched ([(⟨"addis ababa", "bole", "x"⟩ : RefRow)].map refKey) 100
      [("region", Cell.str " Addis Ababa "), ("zone", Cell.str "BOLE"),
        ("woreda", Cell.str "x")] = true := by
  obtain ⟨c, i, h1, h2⟩ := exact_match_always_accepted
    [⟨"addis ababa", "bole", "x"⟩]
    [("region", Cell.str " Addis Ababa "), ("zone", Cell.str "BOLE"),
      ("woreda", Cell.str "x")]
    ⟨"addis ababa", "bole", "x"⟩ 100 (by simp) (by decide) (by norm_num)
  exact h2
